import Mathlib

set_option maxRecDepth 16384

/-!
Shallow embedding of `grafana_openai_monitoring/__handlers.py`.

The two functions with decision logic are embedded:

* `check` models `__check` (configuration validation and URL rewriting).
  Python string containment (`x in s`) is modelled as list-of-characters
  containment (`List.IsInfix` on `String.data`), `str.replace` as
  `replaceAllL` (leftmost, non-overlapping, replace-all), `str.endswith('/')`
  plus slicing `[:-1]` as `stripL`.

* `calculate_cost` models `__calculate_cost`.  The pricing table keeps the
  Python dict's insertion order; dict membership / lookup is modelled with
  `List.find?` on the association list (all keys are distinct).  The Python
  `sorted(key=len, reverse=True)` call is a stable sort; it is modelled with
  Mathlib's `List.insertionSort` on the relation `rLen a b := b.length ≤
  a.length`, which is also stable, and the code only uses the head of the
  sorted list.  Prices and costs are exact rationals (the spec requires the
  cost expression be computed without rounding).
-/

/-- One step of Python `str.replace` scanning, with a fuel parameter to make
the recursion structural.  When the fuel is at least the length of the string
being scanned it never runs out (see `goRep_fuel_eq`). -/
def goRep (pat rep : List Char) : Nat → List Char → List Char
  | _, [] => []
  | 0, s => s
  | n + 1, c :: cs =>
    if pat <+: (c :: cs) ∧ pat ≠ [] then
      rep ++ goRep pat rep n (cs.drop (pat.length - 1))
    else
      c :: goRep pat rep n cs

/-- Python `s.replace(pat, rep)` on character lists: replace every leftmost
non-overlapping occurrence of `pat` in `s` by `rep`. -/
def replaceAllL (s pat rep : List Char) : List Char :=
  goRep pat rep s.length s

/-- Python `s[:-1] if s.endswith('/') else s` on character lists. -/
def stripL (l : List Char) : List Char :=
  if l.getLast? = some '/' then l.dropLast else l

/-- Python substring containment `n in h` for strings. -/
def strContains (h n : String) : Prop :=
  n.data <:+: h.data

instance (h n : String) : Decidable (strContains h n) :=
  List.decidableInfix n.data h.data

/-- Python `h.replace(pat, rep)` for strings. -/
def strReplace (s pat rep : String) : String :=
  ⟨replaceAllL s.data pat.data rep.data⟩

/-- Python `s[:-1] if s.endswith('/') else s` for strings. -/
def stripSlash (s : String) : String :=
  ⟨stripL s.data⟩

/-- The metrics-URL rewrite block of `__check` (the body between the two
validation checks and the final trailing-slash strip). -/
def metricsRewrite (metrics_url : String) : String :=
  if strContains metrics_url "prometheus" then
    let m1 := strReplace metrics_url "prometheus" "influx"
    let m2 := strReplace m1 "api/prom" "api/v1/push/influx/write"
    if strContains m2 "-us-central1" then
      strReplace m2 "-us-central1" "-prod-06-prod-us-central-0"
    else m2
  else metrics_url

/-- Embedding of `__check`: validates the five configuration strings and
rewrites the metrics URL.  A raised `ValueError` is modelled as
`Except.error` carrying the message. -/
def check (metrics_url logs_url metrics_username logs_username access_token :
    String) : Except String (String × String) :=
  if metrics_url = "" ∨ logs_url = "" ∨ metrics_username = "" ∨
      logs_username = "" ∨ access_token = "" then
    Except.error "All parameters must be provided"
  else if ¬ strContains metrics_url "api/prom" then
    Except.error "Invalid metrics URL format"
  else
    Except.ok (stripSlash (metricsRewrite metrics_url), stripSlash logs_url)

/-- The pricing table of `__calculate_cost`, in the Python dict's insertion
order, with prices as exact rationals. -/
def prices : List (String × ℚ × ℚ) :=
  [("gpt-4.1", 0.002, 0.008),
   ("gpt-4.1-mini", 0.0004, 0.0016),
   ("gpt-4.1-nano", 0.0001, 0.0004),
   ("gpt-4.5-preview", 0.075, 0.15),
   ("gpt-4o", 0.0025, 0.01),
   ("gpt-4o-mini", 0.00015, 0.0006),
   ("o1", 0.015, 0.06),
   ("o1-pro", 0.15, 0.6),
   ("o3", 0.01, 0.04),
   ("o3-mini", 0.0011, 0.0044),
   ("o1-mini", 0.0011, 0.0044),
   ("o4-mini", 0.0011, 0.0044),
   ("gpt-4", 0.03, 0.06),
   ("gpt-4-32k", 0.06, 0.12),
   ("gpt-4-turbo", 0.01, 0.03),
   ("gpt-4-turbo-2024-04-09", 0.01, 0.03),
   ("gpt-4-0613", 0.03, 0.06),
   ("gpt-3.5-turbo", 0.0005, 0.0015),
   ("gpt-3.5-turbo-0125", 0.0005, 0.0015),
   ("gpt-3.5-turbo-16k", 0.003, 0.004),
   ("gpt-3.5-turbo-16k-0613", 0.003, 0.004),
   ("gpt-3.5-turbo-instruct", 0.0015, 0.002),
   ("davinci-002", 0.002, 0.002),
   ("babbage-002", 0.0004, 0.0004),
   ("ada", 0.0004, 0.0004),
   ("text-ada-001", 0.0004, 0.0004),
   ("babbage", 0.0004, 0.0004),
   ("text-babbage-001", 0.0004, 0.0004),
   ("curie", 0.0020, 0.0020),
   ("text-curie-001", 0.0020, 0.0020),
   ("davinci", 0.0020, 0.0020),
   ("text-davinci-001", 0.0020, 0.0020),
   ("text-davinci-002", 0.0020, 0.0020),
   ("text-davinci-003", 0.0020, 0.0020)]

/-- Python dict lookup `prices[m]` / membership `m in prices` (keys are
distinct, so association-list lookup agrees with the dict). -/
def lookupPrice (m : String) : Option (ℚ × ℚ) :=
  Option.map Prod.snd (prices.find? (fun e => e.fst == m))

/-- Python `[m for m in prices.keys() if m in model]`, in table order. -/
def matching_models (model : String) : List String :=
  (prices.map Prod.fst).filter (fun m => decide (strContains model m))

/-- Sorting key relation of `sorted(matching_models, key=len, reverse=True)`:
descending length. -/
def rLen (a b : String) : Prop :=
  b.length ≤ a.length

instance : DecidableRel rLen :=
  fun a b => inferInstanceAs (Decidable (b.length ≤ a.length))

instance : IsTotal String rLen :=
  ⟨fun a b => Or.elim (Nat.le_total b.length a.length) Or.inl Or.inr⟩

instance : IsTrans String rLen :=
  ⟨fun _ _ _ hab hbc => le_trans hbc hab⟩

/-- Python `sorted(matching_models, key=len, reverse=True)[0]` when the list of
matches is non-empty: the head of the stable descending-length sort. -/
def longest_match (model : String) : Option String :=
  (List.insertionSort rLen (matching_models model)).head?

/-- Embedding of `__calculate_cost`.  Token counts are integers (the code
performs no validation on them); the cost is an exact rational. -/
def calculate_cost (model : String) (prompt_tokens sampled_tokens : ℤ) : ℚ :=
  match lookupPrice model with
  | some (prompt_price, sampled_price) =>
      ((prompt_tokens : ℚ) / 1000) * prompt_price +
        ((sampled_tokens : ℚ) / 1000) * sampled_price
  | none =>
    match longest_match model with
    | some k =>
      match lookupPrice k with
      | some (prompt_price, sampled_price) =>
          ((prompt_tokens : ℚ) / 1000) * prompt_price +
            ((sampled_tokens : ℚ) / 1000) * sampled_price
      | none => 0
    | none => 0

/-- Reference definition for the tie-break claim: the first element of the
list whose length is maximal (a strictly longer later element wins, a tie
keeps the earlier element).  This is what a stable descending-length sort
puts at the head. -/
def firstMaxLen : List String → Option String
  | [] => none
  | a :: t =>
    match firstMaxLen t with
    | none => some a
    | some b => if a.length < b.length then some b else some a

instance {ε α : Type} [DecidableEq ε] [DecidableEq α] : DecidableEq (Except ε α) :=
  fun a b =>
    match a, b with
    | Except.error x, Except.error y =>
      if h : x = y then isTrue (by rw [h]) else isFalse (fun he => h (by injection he))
    | Except.error _, Except.ok _ => isFalse (fun he => Except.noConfusion he)
    | Except.ok _, Except.error _ => isFalse (fun he => Except.noConfusion he)
    | Except.ok x, Except.ok y =>
      if h : x = y then isTrue (by rw [h]) else isFalse (fun he => h (by injection he))

/-- The empty list is an infix of every list. -/
theorem infixOfNil {α : Type} (l : List α) : [] <:+: l :=
  ⟨[], l, rfl⟩

/-- A prefix is an infix. -/
theorem infixOfPre {α : Type} {x a : List α} (h : x <+: a) : x <:+: a := by
  obtain ⟨t, rfl⟩ := h
  exact ⟨[], t, rfl⟩

/-- A suffix is an infix. -/
theorem infixOfSuf {α : Type} {x a : List α} (h : x <:+ a) : x <:+: a := by
  obtain ⟨s, rfl⟩ := h
  exact ⟨s, [], by simp⟩

theorem goRep_nil (pat rep : List Char) (n : Nat) : goRep pat rep n [] = [] := by
  cases n <;> rfl

theorem goRep_succ (pat rep : List Char) (n : Nat) (c : Char) (cs : List Char) :
    goRep pat rep (n + 1) (c :: cs) =
      if pat <+: (c :: cs) ∧ pat ≠ [] then
        rep ++ goRep pat rep n (cs.drop (pat.length - 1))
      else
        c :: goRep pat rep n cs := rfl

/-- The fuel does not matter once it is at least the length of the string. -/
theorem goRep_fuel_eq (pat rep : List Char) :
    ∀ n m s, s.length ≤ n → s.length ≤ m → goRep pat rep n s = goRep pat rep m s := by
  intro n
  induction n with
  | zero =>
    intro m s hs _
    have : s = [] := List.length_eq_zero.mp (Nat.le_zero.mp hs)
    subst this
    rw [goRep_nil, goRep_nil]
  | succ n ih =>
    intro m s hs hm
    cases s with
    | nil => rw [goRep_nil, goRep_nil]
    | cons c cs =>
      cases m with
      | zero => simp at hm
      | succ m =>
        rw [goRep_succ, goRep_succ]
        simp only [List.length_cons, Nat.add_le_add_iff_right] at hs hm
        by_cases h : pat <+: (c :: cs) ∧ pat ≠ []
        · rw [if_pos h, if_pos h]
          have hd : (cs.drop (pat.length - 1)).length ≤ cs.length := by
            rw [List.length_drop]; omega
          rw [ih m (cs.drop (pat.length - 1)) (le_trans hd hs) (le_trans hd hm)]
        · rw [if_neg h, if_neg h, ih m cs hs hm]

theorem replaceAllL_nil (pat rep : List Char) : replaceAllL [] pat rep = [] := rfl

theorem replaceAllL_cons (pat rep : List Char) (c : Char) (cs : List Char) :
    replaceAllL (c :: cs) pat rep =
      if pat <+: (c :: cs) ∧ pat ≠ [] then
        rep ++ replaceAllL (cs.drop (pat.length - 1)) pat rep
      else
        c :: replaceAllL cs pat rep := by
  show goRep pat rep (cs.length + 1) (c :: cs) = _
  rw [goRep_succ]
  by_cases h : pat <+: (c :: cs) ∧ pat ≠ []
  · rw [if_pos h, if_pos h]
    have hd : (cs.drop (pat.length - 1)).length ≤ cs.length := by
      rw [List.length_drop]; omega
    rw [goRep_fuel_eq pat rep cs.length (cs.drop (pat.length - 1)).length
      (cs.drop (pat.length - 1)) hd (le_refl _)]
    rfl
  · rw [if_neg h, if_neg h]
    rfl

/-- Where an infix of an appended list can live: inside the left part, inside
the right part, or spanning the boundary. -/
theorem infix_append_cases {α : Type} {u : List α} :
    ∀ {a b : List α}, u <:+: a ++ b →
      u <:+: a ∨ u <:+: b ∨
        ∃ x y, u = x ++ y ∧ x ≠ [] ∧ y ≠ [] ∧ x <:+ a ∧ y <+: b := by
  intro a
  induction a with
  | nil =>
    intro b h
    exact Or.inr (Or.inl h)
  | cons c a' ih =>
    intro b h
    rcases List.infix_cons_iff.mp h with hpre | hinf
    · cases u with
      | nil => exact Or.inl (infixOfNil _)
      | cons d u' =>
        obtain ⟨hdc, hu'⟩ := List.cons_prefix_cons.mp hpre
        subst hdc
        rcases List.prefix_or_prefix_of_prefix hu' (List.prefix_append a' b) with h1 | h1
        · exact Or.inl (infixOfPre (List.cons_prefix_cons.mpr ⟨rfl, h1⟩))
        · obtain ⟨y, rfl⟩ := h1
          have hyb : y <+: b := by
            obtain ⟨t, ht⟩ := hu'
            rw [List.append_assoc] at ht
            exact ⟨t, List.append_cancel_left ht⟩
          cases hy : y with
          | nil =>
            subst hy
            exact Or.inl (by simp)
          | cons e y' =>
            refine Or.inr (Or.inr ⟨d :: a', y, by simp [hy], by simp, by simp [hy],
              List.suffix_refl _, hyb⟩)
    · rcases ih hinf with h1 | h1 | ⟨x, y, hxy, hx0, hy0, hxa, hyb⟩
      · exact Or.inl (List.infix_cons h1)
      · exact Or.inr (Or.inl h1)
      · exact Or.inr (Or.inr ⟨x, y, hxy, hx0, hy0,
          List.IsSuffix.trans hxa (List.suffix_cons c a'), hyb⟩)

/-- If a proper non-empty suffix of the pattern is a prefix of the output of
`replaceAllL`, it was already a prefix of the input.  The side conditions say
that no proper non-empty suffix of `pat` is a prefix of `rep` (index form:
`pat.drop i` for `0 < i < pat.length`) and that `rep` is at least as long as
`pat`. -/
theorem sufPre_replaceAllL (pat rep : List Char)
    (hlen : pat.length ≤ rep.length)
    (hsp : ∀ i, i < pat.length → 0 < i → ¬ (pat.drop i <+: rep)) :
    ∀ s y, y <:+ pat → y ≠ pat → y ≠ [] → y <+: replaceAllL s pat rep → y <+: s := by
  suffices H : ∀ n s, s.length ≤ n → ∀ y, y <:+ pat → y ≠ pat → y ≠ [] →
      y <+: replaceAllL s pat rep → y <+: s by
    intro s y h1 h2 h3 h4
    exact H s.length s (le_refl _) y h1 h2 h3 h4
  intro n
  induction n with
  | zero =>
    intro s hs y _ _ hy0 hy
    have : s = [] := List.length_eq_zero.mp (Nat.le_zero.mp hs)
    subst this
    rw [replaceAllL_nil] at hy
    exact absurd (List.prefix_nil.mp hy) hy0
  | succ n ih =>
    intro s hs y hysuf hyne hy0 hy
    cases s with
    | nil =>
      rw [replaceAllL_nil] at hy
      exact absurd (List.prefix_nil.mp hy) hy0
    | cons c cs =>
      simp only [List.length_cons, Nat.add_le_add_iff_right] at hs
      rw [replaceAllL_cons] at hy
      by_cases hm : pat <+: (c :: cs) ∧ pat ≠ []
      · rw [if_pos hm] at hy
        have hylt : y.length < pat.length := by
          have hle := List.IsSuffix.length_le hysuf
          rcases Nat.lt_or_ge y.length pat.length with h | h
          · exact h
          · exact absurd (List.IsSuffix.eq_of_length_le hysuf h) hyne
        rcases List.prefix_or_prefix_of_prefix hy (List.prefix_append rep _) with h1 | h1
        · exfalso
          have hi : y = pat.drop (pat.length - y.length) := by
            have := List.suffix_iff_eq_drop.mp hysuf
            exact this
          refine hsp (pat.length - y.length) (by
            have : 0 < y.length := List.length_pos.mpr hy0
            omega) (by omega) ?_
          rw [← hi]; exact h1
        · exfalso
          have := List.IsPrefix.length_le h1
          omega
      · rw [if_neg hm] at hy
        cases y with
        | nil => exact absurd rfl hy0
        | cons d y' =>
          obtain ⟨hdc, hy'⟩ := List.cons_prefix_cons.mp hy
          subst hdc
          cases hy'nil : y' with
          | nil =>
            subst hy'nil
            exact ⟨cs, rfl⟩
          | cons e y'' =>
            have hy'suf : y' <:+ pat :=
              List.IsSuffix.trans (List.suffix_cons d y') hysuf
            have hy'ne : y' ≠ pat := by
              intro hcon
              have h1 := List.IsSuffix.length_le hysuf
              rw [← hcon] at h1
              simp at h1
            have h2 := ih cs hs y' hy'suf hy'ne (by simp [hy'nil]) hy'
            exact List.cons_prefix_cons.mpr ⟨rfl, by rw [← hy'nil]; exact h2⟩

/-- After `replaceAllL s pat rep` there is no occurrence of `pat` left,
provided `pat` never overlaps `rep` or a replacement boundary:
`pat` is not an infix of `rep`, no proper non-empty suffix of `pat` is a
prefix of `rep`, no non-empty prefix of `pat` is a suffix of `rep`, and `rep`
is at least as long as `pat`. -/
theorem not_infix_replaceAllL (pat rep : List Char)
    (h0 : pat ≠ [])
    (hni : ¬ pat <:+: rep)
    (hlen : pat.length ≤ rep.length)
    (hsp : ∀ i, i < pat.length → 0 < i → ¬ (pat.drop i <+: rep))
    (hps : ∀ i, i ≤ pat.length → 0 < i → ¬ (pat.take i <:+ rep)) :
    ∀ s, ¬ pat <:+: replaceAllL s pat rep := by
  suffices H : ∀ n s, s.length ≤ n → ¬ pat <:+: replaceAllL s pat rep by
    intro s
    exact H s.length s (le_refl _)
  intro n
  induction n with
  | zero =>
    intro s hs hcon
    have : s = [] := List.length_eq_zero.mp (Nat.le_zero.mp hs)
    subst this
    rw [replaceAllL_nil] at hcon
    exact h0 (List.infix_nil.mp hcon)
  | succ n ih =>
    intro s hs hcon
    cases s with
    | nil =>
      rw [replaceAllL_nil] at hcon
      exact h0 (List.infix_nil.mp hcon)
    | cons c cs =>
      simp only [List.length_cons, Nat.add_le_add_iff_right] at hs
      rw [replaceAllL_cons] at hcon
      by_cases hm : pat <+: (c :: cs) ∧ pat ≠ []
      · rw [if_pos hm] at hcon
        rcases infix_append_cases hcon with h1 | h1 | ⟨x, y, hxy, hx0, hy0, hxa, hyb⟩
        · exact hni h1
        · have hd : (cs.drop (pat.length - 1)).length ≤ n := by
            rw [List.length_drop]; omega
          exact ih (cs.drop (pat.length - 1)) hd h1
        · have hxpre : x <+: pat := ⟨y, hxy.symm⟩
          have hx : x = pat.take x.length := List.prefix_iff_eq_take.mp hxpre
          refine hps x.length (List.IsPrefix.length_le hxpre)
            (List.length_pos.mpr hx0) ?_
          rw [← hx]; exact hxa
      · rw [if_neg hm] at hcon
        rcases List.infix_cons_iff.mp hcon with hpre | hinf
        · obtain ⟨d, pat', hp⟩ := List.exists_cons_of_ne_nil h0
          have h2 := hpre
          rw [hp] at h2
          obtain ⟨hdc, hp'⟩ := List.cons_prefix_cons.mp h2
          rw [← hp] at hp'
          cases hp'nil : pat' with
          | nil =>
            refine hm ⟨?_, h0⟩
            rw [hp, hp'nil, hdc]
            exact List.cons_prefix_cons.mpr ⟨rfl, List.nil_prefix⟩
          | cons e pat'' =>
            have hsuf : pat' <:+ pat := by
              rw [hp]
              exact List.suffix_cons d pat'
            have h1 : pat' <+: cs := by
              refine sufPre_replaceAllL pat rep hlen hsp cs pat' hsuf ?_ ?_ hp'
              · intro hcon2
                rw [hp] at hcon2
                have h3 := congrArg List.length hcon2
                simp at h3
              · simp [hp'nil]
            refine hm ⟨?_, h0⟩
            rw [hp, hdc]
            exact List.cons_prefix_cons.mpr ⟨rfl, h1⟩
        · exact ih cs hs hinf

/-- Helper: a list whose `getLast?` is known splits as `dropLast ++ [last]`. -/
theorem eq_dropLast_concat {l : List Char} {a : Char} (h : l.getLast? = some a) :
    l = l.dropLast ++ [a] :=
  (List.dropLast_append_getLast? a h).symm

/-- If a list does not end with two slashes, stripping one trailing slash
leaves a list that does not end with a slash. -/
theorem stripL_getLast_ne {l : List Char} (h : ¬ (['/', '/'] <:+ l)) :
    (stripL l).getLast? ≠ some '/' := by
  unfold stripL
  by_cases hl : l.getLast? = some '/'
  · rw [if_pos hl]
    intro hd
    refine h ?_
    have h1 := eq_dropLast_concat hl
    have h2 := eq_dropLast_concat hd
    refine ⟨l.dropLast.dropLast, ?_⟩
    conv_rhs => rw [h1, h2]
    simp
  · rw [if_neg hl]
    exact hl

/-- The strip step only ever shortens from the right: its result is a prefix
of its input. -/
theorem stripL_isPre (l : List Char) : stripL l <+: l := by
  unfold stripL
  by_cases hl : l.getLast? = some '/'
  · rw [if_pos hl]
    exact ⟨['/'], (eq_dropLast_concat hl).symm⟩
  · rw [if_neg hl]

/-- A non-empty infix whose last character is not `c` survives dropping the
last character of a list that ends in `c`; specialised to the strip step: an
infix that does not end in a slash survives `stripL`. -/
theorem infix_stripL (c : Char) {pat l : List Char} (h : pat <:+: l)
    (hc : pat.getLast? = some c) (hne : ¬ c = '/') : pat <:+: stripL l := by
  unfold stripL
  by_cases hl : l.getLast? = some '/'
  · rw [if_pos hl]
    have h1 := eq_dropLast_concat hl
    rw [h1] at h
    rcases infix_append_cases h with h2 | h2 | ⟨x, y, hxy, hx0, hy0, hxa, hyb⟩
    · exact h2
    · exfalso
      cases pat with
      | nil => simp at hc
      | cons d pat' =>
        cases pat' with
        | nil =>
          have hd : d ∈ ['/'] := List.IsInfix.subset h2 (by simp)
          simp at hd
          simp [hd] at hc
          exact hne hc.symm
        | cons e pat'' =>
          have hlen := List.IsInfix.length_le h2
          simp at hlen
    · exfalso
      have hy : y = ['/'] := by
        obtain ⟨t, ht⟩ := hyb
        cases y with
        | nil => exact absurd rfl hy0
        | cons e y' =>
          simp only [List.cons_append, List.cons.injEq] at ht
          obtain ⟨he, ht'⟩ := ht
          have h3 : y' = [] := by
            have h4 := congrArg List.length ht'
            simp only [List.length_append, List.length_nil] at h4
            exact List.length_eq_zero.mp (by omega)
          rw [he, h3]
      rw [hy] at hxy
      rw [hxy, List.getLast?_concat] at hc
      injection hc with h5
      exact hne h5.symm
  · rw [if_neg hl]
    exact h

/-- Evaluation of `check` on inputs that pass both validations. -/
theorem check_eq_ok (m l mu lu tok : String)
    (h1 : ¬ m = "") (h2 : ¬ l = "") (h3 : ¬ mu = "") (h4 : ¬ lu = "")
    (h5 : ¬ tok = "") (h6 : strContains m "api/prom") :
    check m l mu lu tok =
      Except.ok (stripSlash (metricsRewrite m), stripSlash l) := by
  unfold check
  rw [if_neg (by simp [h1, h2, h3, h4, h5]), if_neg (not_not_intro h6)]

/-- Failure of `check` happens exactly when an argument is empty or the metrics URL lacks
the marker. -/
theorem check_error_iff (m l mu lu tok : String) :
    (∃ e, check m l mu lu tok = Except.error e) ↔
      (m = "" ∨ l = "" ∨ mu = "" ∨ lu = "" ∨ tok = "" ∨
        ¬ strContains m "api/prom") := by
  unfold check
  by_cases hc1 : m = "" ∨ l = "" ∨ mu = "" ∨ lu = "" ∨ tok = ""
  · rw [if_pos hc1]
    exact iff_of_true ⟨_, rfl⟩ (by tauto)
  · rw [if_neg hc1]
    by_cases hc2 : strContains m "api/prom"
    · rw [if_neg (not_not_intro hc2)]
      refine iff_of_false ?_ (by tauto)
      rintro ⟨e, he⟩
      exact Except.noConfusion he
    · rw [if_pos hc2]
      exact iff_of_true ⟨_, rfl⟩ (by tauto)

/-- When the matches are non-empty, `longest_match` returns a member of the
matches of maximal length. -/
theorem longest_match_max (model : String)
    (hne : matching_models model ≠ []) :
    ∃ k, longest_match model = some k ∧ k ∈ matching_models model ∧
      ∀ k' ∈ matching_models model, k'.length ≤ k.length := by
  unfold longest_match
  have hperm := List.perm_insertionSort rLen (matching_models model)
  have hsort := List.sorted_insertionSort rLen (matching_models model)
  cases hS : List.insertionSort rLen (matching_models model) with
  | nil =>
    exfalso
    rw [hS] at hperm
    exact hne (List.Perm.eq_nil (List.Perm.symm hperm))
  | cons k rest =>
    rw [hS] at hperm hsort
    refine ⟨k, rfl, ?_, ?_⟩
    · exact (List.Perm.mem_iff hperm).mp (by simp)
    · intro k' hk'
      have hk'' : k' ∈ k :: rest := (List.Perm.mem_iff hperm).mpr hk'
      rcases List.mem_cons.mp hk'' with rfl | hmem
      · exact le_refl _
      · exact (List.sorted_cons.mp hsort).1 k' hmem

/-- The head of the stable descending-length sort is the earliest element of
maximal length. -/
theorem head_sort_firstMaxLen : ∀ l : List String,
    (List.insertionSort rLen l).head? = firstMaxLen l := by
  intro l
  induction l with
  | nil => rfl
  | cons a t ih =>
    show (List.orderedInsert rLen a (List.insertionSort rLen t)).head? = _
    cases hS : List.insertionSort rLen t with
    | nil =>
      rw [hS] at ih
      unfold firstMaxLen
      rw [← ih]
      rfl
    | cons b s' =>
      rw [hS] at ih
      unfold firstMaxLen
      rw [← ih]
      simp only [List.head?_cons]
      by_cases hr : rLen a b
      · rw [List.orderedInsert_of_le rLen s' hr]
        have : ¬ a.length < b.length := by
          unfold rLen at hr
          omega
        rw [if_neg this]
        rfl
      · show (if rLen a b then a :: b :: s' else b :: List.orderedInsert rLen a s').head? = _
        rw [if_neg hr]
        have : a.length < b.length := by
          unfold rLen at hr
          omega
        rw [if_pos this]
        rfl

/-- A key that occurs among the table keys has a price pair. -/
theorem lookupPrice_of_memKeys {k : String} (h : k ∈ prices.map Prod.fst) :
    ∃ pr, lookupPrice k = some pr := by
  unfold lookupPrice
  have h1 : ∃ x, x ∈ prices ∧ (fun e => e.fst == k) x = true := by
    obtain ⟨e, he, hek⟩ := List.mem_map.mp h
    exact ⟨e, he, by simp [hek]⟩
  have h2 := List.find?_isSome.mpr h1
  cases hf : prices.find? (fun e => e.fst == k) with
  | none => rw [hf] at h2; simp at h2
  | some e => exact ⟨e.snd, rfl⟩

/-- The price pair returned by a lookup is a pair of the table. -/
theorem lookupPrice_mem {k : String} {pr : ℚ × ℚ}
    (h : lookupPrice k = some pr) : pr ∈ prices.map Prod.snd := by
  unfold lookupPrice at h
  cases hf : prices.find? (fun e => e.fst == k) with
  | none => rw [hf] at h; simp at h
  | some e =>
    rw [hf] at h
    have h2 : some e.snd = some pr := h
    injection h2 with h'
    exact h' ▸ List.mem_map.mpr ⟨e, List.mem_of_find?_eq_some hf, rfl⟩

/-- Every price pair of the table is componentwise non-negative. -/
theorem prices_nonneg : ∀ pr ∈ prices.map Prod.snd, 0 ≤ pr.1 ∧ 0 ≤ pr.2 := by
  intro pr h
  simp only [prices, List.map_cons, List.map_nil, List.mem_cons,
    List.not_mem_nil, or_false] at h
  rcases h with rfl | rfl | rfl | rfl | rfl | rfl | rfl | rfl | rfl | rfl |
    rfl | rfl | rfl | rfl | rfl | rfl | rfl | rfl | rfl | rfl | rfl | rfl |
    rfl | rfl | rfl | rfl | rfl | rfl | rfl | rfl | rfl | rfl | rfl | rfl <;>
    constructor <;> norm_num

/-- Evaluation of `calculate_cost` on an exact table key. -/
theorem calculate_cost_exact {model : String} {pp sp : ℚ}
    (h : lookupPrice model = some (pp, sp)) (p c : ℤ) :
    calculate_cost model p c = ((p : ℚ) / 1000) * pp + ((c : ℚ) / 1000) * sp := by
  unfold calculate_cost
  rw [h]

/-- Evaluation of `calculate_cost` through the longest-substring match. -/
theorem calculate_cost_fuzzy {model k : String} {pp sp : ℚ}
    (h : lookupPrice model = none) (hl : longest_match model = some k)
    (hk : lookupPrice k = some (pp, sp)) (p c : ℤ) :
    calculate_cost model p c = ((p : ℚ) / 1000) * pp + ((c : ℚ) / 1000) * sp := by
  unfold calculate_cost
  rw [h, hl]
  dsimp only
  rw [hk]

/-- Evaluation of `calculate_cost` when nothing matches. -/
theorem calculate_cost_nomatch {model : String}
    (h : lookupPrice model = none) (hl : longest_match model = none)
    (p c : ℤ) : calculate_cost model p c = 0 := by
  unfold calculate_cost
  rw [h, hl]

/-- Evaluation of `calculate_cost` when the matched key has no pair (never
reachable, but part of the code's shape). -/
theorem calculate_cost_fuzzy_nokey {model k : String}
    (h : lookupPrice model = none) (hl : longest_match model = some k)
    (hk : lookupPrice k = none) (p c : ℤ) : calculate_cost model p c = 0 := by
  unfold calculate_cost
  rw [h, hl]
  dsimp only
  rw [hk]

/-- An empty match list means `longest_match` finds nothing. -/
theorem longest_match_nil {model : String}
    (h : matching_models model = []) : longest_match model = none := by
  unfold longest_match
  rw [h]
  rfl

/-- C1: `__calculate_cost` follows the reference definition: an exact key of
the pricing table selects its pair; otherwise, if some table keys are
substrings of the model name, a maximal-length such key's pair is selected;
otherwise the result is 0; a selected pair `(pp, sp)` yields exactly
`(promptTokens / 1000) * pp + (completionTokens / 1000) * sp` with no
rounding (exact rational arithmetic). -/
theorem c1_cost_reference (model : String) (p c : ℤ) :
    (∀ pp sp, lookupPrice model = some (pp, sp) →
      calculate_cost model p c = ((p : ℚ) / 1000) * pp + ((c : ℚ) / 1000) * sp) ∧
    (lookupPrice model = none → matching_models model ≠ [] →
      ∃ k, k ∈ matching_models model ∧
        (∀ k' ∈ matching_models model, k'.length ≤ k.length) ∧
        ∃ pp sp, lookupPrice k = some (pp, sp) ∧
          calculate_cost model p c =
            ((p : ℚ) / 1000) * pp + ((c : ℚ) / 1000) * sp) ∧
    (lookupPrice model = none → matching_models model = [] →
      calculate_cost model p c = 0) := by
  refine ⟨?_, ?_, ?_⟩
  · intro pp sp h
    exact calculate_cost_exact h p c
  · intro hnone hne
    obtain ⟨k, hlm, hkmem, hkmax⟩ := longest_match_max model hne
    have hkeys : k ∈ prices.map Prod.fst := (List.mem_filter.mp hkmem).1
    obtain ⟨pr, hpr⟩ := lookupPrice_of_memKeys hkeys
    obtain ⟨pp, sp⟩ := pr
    exact ⟨k, hkmem, hkmax, pp, sp, hpr, calculate_cost_fuzzy hnone hlm hpr p c⟩
  · intro hnone hms
    exact calculate_cost_nomatch hnone (longest_match_nil hms) p c

/-- Witness for C1 at the exact key `"gpt-4o"` with 1000/1000 tokens. -/
theorem c1_cost_reference_w :
    lookupPrice "gpt-4o" = some (0.0025, 0.01) ∧
    calculate_cost "gpt-4o" 1000 1000 =
      (((1000 : ℤ) : ℚ) / 1000) * 0.0025 + (((1000 : ℤ) : ℚ) / 1000) * 0.01 :=
  ⟨rfl, (c1_cost_reference "gpt-4o" 1000 1000).1 0.0025 0.01 rfl⟩

/-- C2: `__check` fails exactly when one of the five arguments is empty or
the metrics URL does not contain `"api/prom"`; on every five-tuple of
non-empty strings whose metrics URL contains `"api/prom"` it returns a pair
of canonical URLs. -/
theorem c2_check_error_iff (m l mu lu tok : String) :
    ((∃ e, check m l mu lu tok = Except.error e) ↔
      (m = "" ∨ l = "" ∨ mu = "" ∨ lu = "" ∨ tok = "" ∨
        ¬ strContains m "api/prom")) ∧
    (¬ m = "" → ¬ l = "" → ¬ mu = "" → ¬ lu = "" → ¬ tok = "" →
      strContains m "api/prom" →
      ∃ urls, check m l mu lu tok = Except.ok urls) := by
  refine ⟨check_error_iff m l mu lu tok, ?_⟩
  intro h1 h2 h3 h4 h5 h6
  exact ⟨_, check_eq_ok m l mu lu tok h1 h2 h3 h4 h5 h6⟩

/-- Witness for C2: an empty first argument produces an error, and a full
valid tuple produces a pair. -/
theorem c2_check_error_iff_w :
    (∃ e, check "" "l" "u" "v" "t" = Except.error e) ∧
    (∃ urls, check "https://x/api/prom" "l" "u" "v" "t" = Except.ok urls) :=
  ⟨(c2_check_error_iff "" "l" "u" "v" "t").1.mpr (by decide),
   (c2_check_error_iff "https://x/api/prom" "l" "u" "v" "t").2
     (by decide) (by decide) (by decide) (by decide) (by decide) (by decide)⟩

/-- C3: a model name of which no pricing-table key is a substring costs
exactly 0 for all token counts, with no error. -/
theorem c3_unknown_model_zero (model : String) (p c : ℤ)
    (h : ∀ k ∈ prices.map Prod.fst, ¬ strContains model k) :
    calculate_cost model p c = 0 := by
  have hms : matching_models model = [] := by
    unfold matching_models
    rw [List.filter_eq_nil_iff]
    intro a ha
    simp [h a ha]
  have hnone : lookupPrice model = none := by
    unfold lookupPrice
    cases hf : prices.find? (fun e => e.fst == model) with
    | none => rfl
    | some e =>
      exfalso
      have h1 : e.fst = model := by
        have h2 := List.find?_some hf
        simpa using h2
      have h3 : e.fst ∈ prices.map Prod.fst :=
        List.mem_map.mpr ⟨e, List.mem_of_find?_eq_some hf, rfl⟩
      refine h e.fst h3 ?_
      rw [h1]
      exact List.infix_refl model.data
  exact calculate_cost_nomatch hnone (longest_match_nil hms) p c

/-- Witness for C3 at `"unknown-model-xyz"` with 500/500 tokens (and also at
negative token counts). -/
theorem c3_unknown_model_zero_w :
    (∀ k ∈ prices.map Prod.fst, ¬ strContains "unknown-model-xyz" k) ∧
    calculate_cost "unknown-model-xyz" 500 500 = 0 ∧
    calculate_cost "unknown-model-xyz" (-7) (-9) = 0 :=
  ⟨by decide, c3_unknown_model_zero "unknown-model-xyz" 500 500 (by decide),
    c3_unknown_model_zero "unknown-model-xyz" (-7) (-9) (by decide)⟩

/-- C4 counterexample: a negative prompt-token count yields a strictly
negative cost, so the result of `__calculate_cost` is not always
non-negative. -/
theorem c4_counterexample : calculate_cost "gpt-4o" (-1000) 0 < 0 := by
  have h : calculate_cost "gpt-4o" (-1000) 0 =
      (((-1000 : ℤ) : ℚ) / 1000) * 0.0025 + (((0 : ℤ) : ℚ) / 1000) * 0.01 := rfl
  rw [h]
  norm_num

/-- C4 (amended): for every model name and all NON-NEGATIVE integer token
counts, the value returned by `__calculate_cost` is non-negative. -/
theorem c4_cost_nonneg (model : String) (p c : ℤ)
    (hp : 0 ≤ p) (hc : 0 ≤ c) : 0 ≤ calculate_cost model p c := by
  have hp' : (0 : ℚ) ≤ (p : ℚ) := by exact_mod_cast hp
  have hc' : (0 : ℚ) ≤ (c : ℚ) := by exact_mod_cast hc
  have hth : (0 : ℚ) ≤ 1000 := by norm_num
  cases hf : lookupPrice model with
  | some pr =>
    obtain ⟨pp, sp⟩ := pr
    obtain ⟨hpp, hsp⟩ := prices_nonneg _ (lookupPrice_mem hf)
    rw [calculate_cost_exact hf p c]
    exact add_nonneg (mul_nonneg (div_nonneg hp' hth) hpp)
      (mul_nonneg (div_nonneg hc' hth) hsp)
  | none =>
    cases hl : longest_match model with
    | none => rw [calculate_cost_nomatch hf hl p c]
    | some k =>
      cases hk : lookupPrice k with
      | none => rw [calculate_cost_fuzzy_nokey hf hl hk p c]
      | some pr =>
        obtain ⟨pp, sp⟩ := pr
        obtain ⟨hpp, hsp⟩ := prices_nonneg _ (lookupPrice_mem hk)
        rw [calculate_cost_fuzzy hf hl hk p c]
        exact add_nonneg (mul_nonneg (div_nonneg hp' hth) hpp)
          (mul_nonneg (div_nonneg hc' hth) hsp)

/-- Witness for the amended C4 at `"gpt-4o"` with 1000/1000 tokens. -/
theorem c4_cost_nonneg_w :
    (0 : ℤ) ≤ 1000 ∧ 0 ≤ calculate_cost "gpt-4o" 1000 1000 :=
  ⟨by decide, c4_cost_nonneg "gpt-4o" 1000 1000 (by decide) (by decide)⟩

/-- Strings with equal character data are equal. -/
theorem strEqOfData {a b : String} (h : a.data = b.data) : a = b := by
  cases a
  cases b
  exact congrArg String.mk h

/-- The character data of a stripped string. -/
theorem stripSlash_data (s : String) : (stripSlash s).data = stripL s.data := rfl

/-- Stripping is the identity on strings that do not end in a slash. -/
theorem stripSlash_eq_self {s : String} (h : ¬ s.data.getLast? = some '/') :
    stripSlash s = s := by
  apply strEqOfData
  rw [stripSlash_data]
  unfold stripL
  rw [if_neg h]

/-- Stripping one trailing slash keeps non-empty every list other than
`['/']`. -/
theorem stripL_ne_nil {l : List Char} (h0 : ¬ l = []) (h1 : ¬ l = ['/']) :
    ¬ stripL l = [] := by
  unfold stripL
  by_cases hl : l.getLast? = some '/'
  · rw [if_pos hl]
    intro hcon
    have h2 := eq_dropLast_concat hl
    rw [hcon] at h2
    exact h1 (by simpa using h2)
  · rw [if_neg hl]
    exact h0

/-- The rewrite block is the identity when the URL does not mention
`"prometheus"`. -/
theorem metricsRewrite_no_prom {m : String}
    (h : ¬ strContains m "prometheus") : metricsRewrite m = m := by
  unfold metricsRewrite
  rw [if_neg h]

/-- The rewrite block when the URL mentions `"prometheus"` and the rewritten
URL contains the region marker. -/
theorem metricsRewrite_prom_region {m : String}
    (h : strContains m "prometheus")
    (hr : strContains (strReplace (strReplace m "prometheus" "influx")
      "api/prom" "api/v1/push/influx/write") "-us-central1") :
    metricsRewrite m =
      strReplace (strReplace (strReplace m "prometheus" "influx")
        "api/prom" "api/v1/push/influx/write")
        "-us-central1" "-prod-06-prod-us-central-0" := by
  unfold metricsRewrite
  rw [if_pos h]
  dsimp only
  rw [if_pos hr]

/-- C5 counterexample: a metrics URL containing the region marker but not
`"prometheus"` passes the rewrite unchanged (`metricsRewrite` is the
identity, so the URL "after the conditional prometheus-rewrite step" still
contains the marker), yet the returned canonical metrics URL still contains
`"-us-central1"`: the region aliasing is not applied. -/
theorem c5_counterexample :
    strContains (metricsRewrite "x-us-central1/api/prom") "-us-central1" ∧
    check "x-us-central1/api/prom" "l" "u" "v" "t" =
      Except.ok ("x-us-central1/api/prom", "l") ∧
    strContains "x-us-central1/api/prom" "-us-central1" :=
  ⟨by decide, by decide, by decide⟩

/-- C5 (amended): the region aliasing happens only inside the
prometheus-rewrite branch: for every valid input whose metrics URL contains
`"prometheus"`, if the rewritten URL contains `"-us-central1"` then the
returned canonical metrics URL is the rewritten URL with every occurrence of
the marker replaced by `"-prod-06-prod-us-central-0"` (then slash-stripped),
and it no longer contains `"-us-central1"`. -/
theorem c5_region_rewrite (m l mu lu tok : String)
    (h1 : ¬ m = "") (h2 : ¬ l = "") (h3 : ¬ mu = "") (h4 : ¬ lu = "")
    (h5 : ¬ tok = "") (h6 : strContains m "api/prom")
    (hp : strContains m "prometheus")
    (hr : strContains (strReplace (strReplace m "prometheus" "influx")
      "api/prom" "api/v1/push/influx/write") "-us-central1") :
    check m l mu lu tok = Except.ok
      (stripSlash (strReplace (strReplace (strReplace m "prometheus" "influx")
        "api/prom" "api/v1/push/influx/write")
        "-us-central1" "-prod-06-prod-us-central-0"), stripSlash l) ∧
    ∀ M L, check m l mu lu tok = Except.ok (M, L) →
      ¬ strContains M "-us-central1" := by
  have hmr := metricsRewrite_prom_region hp hr
  have hok := check_eq_ok m l mu lu tok h1 h2 h3 h4 h5 h6
  constructor
  · rw [hok, hmr]
  · intro M L hML
    rw [hok] at hML
    injection hML with h7
    injection h7 with hM hL
    rw [← hM, hmr]
    intro hcon
    have hcon2 : ("-us-central1".data : List Char) <:+:
        stripL (replaceAllL
          (strReplace (strReplace m "prometheus" "influx")
            "api/prom" "api/v1/push/influx/write").data
          ("-us-central1".data) ("-prod-06-prod-us-central-0".data)) := hcon
    have hcon3 := List.IsInfix.trans hcon2 (infixOfPre (stripL_isPre _))
    exact not_infix_replaceAllL ("-us-central1".data)
      ("-prod-06-prod-us-central-0".data) (by decide) (by decide) (by decide)
      (by decide) (by decide) _ hcon3

/-- Witness for the amended C5 on a concrete prometheus-region URL. -/
theorem c5_region_rewrite_w :
    check "https://prometheus-us-central1.grafana.net/api/prom/" "l" "u" "v" "t" =
      Except.ok
        ("https://influx-prod-06-prod-us-central-0.grafana.net/api/v1/push/influx/write",
         "l") ∧
    ¬ strContains
      "https://influx-prod-06-prod-us-central-0.grafana.net/api/v1/push/influx/write"
      "-us-central1" := by
  have h := c5_region_rewrite "https://prometheus-us-central1.grafana.net/api/prom/"
    "l" "u" "v" "t" (by decide) (by decide) (by decide) (by decide) (by decide)
    (by decide) (by decide) (by decide)
  exact ⟨by decide,
    h.2 "https://influx-prod-06-prod-us-central-0.grafana.net/api/v1/push/influx/write"
      "l" (by decide)⟩

/-- C6 counterexample: a metrics URL ending in a double slash keeps one
trailing slash in the returned canonical URL (only one slash is stripped). -/
theorem c6_counterexample :
    check "api/prom//" "x" "u" "v" "t" = Except.ok ("api/prom/", "x") ∧
    ("api/prom/" : String).data.getLast? = some '/' :=
  ⟨by decide, by decide⟩

/-- C6 (amended): for every valid five-tuple whose rewritten metrics URL and
logs URL do not end in a double slash, both returned strings end with no
trailing slash. -/
theorem c6_no_trailing_slash (m l mu lu tok : String)
    (h1 : ¬ m = "") (h2 : ¬ l = "") (h3 : ¬ mu = "") (h4 : ¬ lu = "")
    (h5 : ¬ tok = "") (h6 : strContains m "api/prom")
    (hm2 : ¬ (['/', '/'] <:+ (metricsRewrite m).data))
    (hl2 : ¬ (['/', '/'] <:+ l.data)) :
    ∀ M L, check m l mu lu tok = Except.ok (M, L) →
      ¬ M.data.getLast? = some '/' ∧ ¬ L.data.getLast? = some '/' := by
  intro M L hML
  rw [check_eq_ok m l mu lu tok h1 h2 h3 h4 h5 h6] at hML
  injection hML with h7
  injection h7 with hM hL
  constructor
  · rw [← hM]
    exact stripL_getLast_ne hm2
  · rw [← hL]
    exact stripL_getLast_ne hl2

/-- Witness for the amended C6 on concrete single-trailing-slash URLs. -/
theorem c6_no_trailing_slash_w :
    ¬ ("https://x/api/prom" : String).data.getLast? = some '/' ∧
    ¬ ("https://y" : String).data.getLast? = some '/' :=
  c6_no_trailing_slash "https://x/api/prom/" "https://y/" "u" "v" "t"
    (by decide) (by decide) (by decide) (by decide) (by decide) (by decide)
    (by decide) (by decide) "https://x/api/prom" "https://y" (by decide)

/-- C7 counterexample: re-applying `__check` to its own output is not safe:
for a prometheus-style metrics URL the first application removes the
`"api/prom"` marker, so the second application raises. -/
theorem c7_counterexample :
    check "https://prometheus-us-central1.grafana.net/api/prom/" "lx" "u" "v" "t" =
      Except.ok
        ("https://influx-prod-06-prod-us-central-0.grafana.net/api/v1/push/influx/write",
         "lx") ∧
    (∃ e, check
      "https://influx-prod-06-prod-us-central-0.grafana.net/api/v1/push/influx/write"
      "lx" "u" "v" "t" = Except.error e) :=
  ⟨by decide, ⟨"Invalid metrics URL format", by decide⟩⟩

/-- C7 (amended): re-application is a safe no-op on the non-rewriting path:
for every valid input whose metrics URL does not contain `"prometheus"`,
whose URLs do not end in a double slash, and whose logs URL is not the bare
`"/"`, applying `__check` to the returned URLs with the same credentials
succeeds and returns the same two URLs. -/
theorem c7_idempotent_after_first (m l mu lu tok : String)
    (h1 : ¬ m = "") (h2 : ¬ l = "") (h3 : ¬ mu = "") (h4 : ¬ lu = "")
    (h5 : ¬ tok = "") (h6 : strContains m "api/prom")
    (hp : ¬ strContains m "prometheus")
    (hm2 : ¬ (['/', '/'] <:+ m.data))
    (hl2 : ¬ (['/', '/'] <:+ l.data))
    (hlr : ¬ l = "/") :
    ∀ M L, check m l mu lu tok = Except.ok (M, L) →
      check M L mu lu tok = Except.ok (M, L) := by
  intro M L hML
  rw [check_eq_ok m l mu lu tok h1 h2 h3 h4 h5 h6,
    metricsRewrite_no_prom hp] at hML
  injection hML with h7
  injection h7 with hM hL
  rw [← hM, ← hL]
  have hapi : strContains (stripSlash m) "api/prom" :=
    infix_stripL 'm' h6 (by decide) (by decide)
  have hm0 : ¬ stripSlash m = "" := by
    intro hc
    have h8 : ("api/prom".data : List Char) <:+: ("" : String).data := by
      rw [← hc]
      exact hapi
    exact absurd (List.infix_nil.mp h8) (by decide)
  have hl0 : ¬ stripSlash l = "" := by
    intro hc
    have h8 : stripL l.data = [] := congrArg String.data hc
    have ha : ¬ l.data = [] := fun hc2 => h2 (strEqOfData (by rw [hc2]))
    have hb : ¬ l.data = ['/'] := fun hc2 => hlr (strEqOfData (by rw [hc2]))
    exact stripL_ne_nil ha hb h8
  have hpm : ¬ strContains (stripSlash m) "prometheus" := by
    intro hc
    exact hp (List.IsInfix.trans hc (infixOfPre (stripL_isPre m.data)))
  rw [check_eq_ok (stripSlash m) (stripSlash l) mu lu tok hm0 hl0 h3 h4 h5 hapi,
    metricsRewrite_no_prom hpm,
    @stripSlash_eq_self (stripSlash m) (stripL_getLast_ne hm2),
    @stripSlash_eq_self (stripSlash l) (stripL_getLast_ne hl2)]

/-- Witness for the amended C7 on a concrete non-prometheus URL pair. -/
theorem c7_idempotent_after_first_w :
    check "https://x/api/prom" "https://y" "u" "v" "t" =
      Except.ok ("https://x/api/prom", "https://y") :=
  c7_idempotent_after_first "https://x/api/prom/" "https://y/" "u" "v" "t"
    (by decide) (by decide) (by decide) (by decide) (by decide) (by decide)
    (by decide) (by decide) (by decide) (by decide)
    "https://x/api/prom" "https://y" (by decide)

/-- C8: on the concrete URL
`"https://prometheus-prod-01-prod-us-central1.grafana.net/api/prom/push/"`
`__check` succeeds, and the returned canonical metrics URL has
`"prometheus"` replaced by `"influx"`, `"api/prom"` replaced by
`"api/v1/push/influx/write"`, `"-us-central1"` replaced by
`"-prod-06-prod-us-central-0"`, and no trailing slash. -/
theorem c8_concrete_rewrite :
    check "https://prometheus-prod-01-prod-us-central1.grafana.net/api/prom/push/"
        "lg" "u" "v" "t" =
      Except.ok
        ("https://influx-prod-01-prod-prod-06-prod-us-central-0.grafana.net/api/v1/push/influx/write/push",
         "lg") ∧
    strContains
      "https://influx-prod-01-prod-prod-06-prod-us-central-0.grafana.net/api/v1/push/influx/write/push"
      "influx" ∧
    ¬ strContains
      "https://influx-prod-01-prod-prod-06-prod-us-central-0.grafana.net/api/v1/push/influx/write/push"
      "prometheus" ∧
    strContains
      "https://influx-prod-01-prod-prod-06-prod-us-central-0.grafana.net/api/v1/push/influx/write/push"
      "api/v1/push/influx/write" ∧
    ¬ strContains
      "https://influx-prod-01-prod-prod-06-prod-us-central-0.grafana.net/api/v1/push/influx/write/push"
      "api/prom" ∧
    strContains
      "https://influx-prod-01-prod-prod-06-prod-us-central-0.grafana.net/api/v1/push/influx/write/push"
      "-prod-06-prod-us-central-0" ∧
    ¬ strContains
      "https://influx-prod-01-prod-prod-06-prod-us-central-0.grafana.net/api/v1/push/influx/write/push"
      "-us-central1" ∧
    ¬ ("https://influx-prod-01-prod-prod-06-prod-us-central-0.grafana.net/api/v1/push/influx/write/push" :
        String).data.getLast? = some '/' :=
  ⟨by decide, by decide, by decide, by decide, by decide, by decide, by decide,
   by decide⟩

/-- C9: on every valid input the returned logs URL is the input logs URL with
exactly one trailing slash removed when present (and unchanged otherwise);
none of the metrics rewrites is applied to it. -/
theorem c9_logs_passthrough (m l mu lu tok : String)
    (h1 : ¬ m = "") (h2 : ¬ l = "") (h3 : ¬ mu = "") (h4 : ¬ lu = "")
    (h5 : ¬ tok = "") (h6 : strContains m "api/prom") :
    check m l mu lu tok =
      Except.ok (stripSlash (metricsRewrite m), stripSlash l) ∧
    (l.data.getLast? = some '/' → (stripSlash l).data = l.data.dropLast) ∧
    (¬ l.data.getLast? = some '/' → stripSlash l = l) := by
  refine ⟨check_eq_ok m l mu lu tok h1 h2 h3 h4 h5 h6, ?_, ?_⟩
  · intro hl
    show stripL l.data = l.data.dropLast
    unfold stripL
    rw [if_pos hl]
  · intro hl
    exact stripSlash_eq_self hl

/-- Witness for C9 with a logs URL that contains both `"prometheus"` and
`"api/prom"`: it is still only slash-stripped. -/
theorem c9_logs_passthrough_w :
    check "https://x/api/prom" "https://logs/api/prom/prometheus/" "u" "v" "t" =
      Except.ok (stripSlash (metricsRewrite "https://x/api/prom"),
        stripSlash "https://logs/api/prom/prometheus/") ∧
    stripSlash "https://logs/api/prom/prometheus/" =
      "https://logs/api/prom/prometheus" :=
  ⟨(c9_logs_passthrough "https://x/api/prom" "https://logs/api/prom/prometheus/"
      "u" "v" "t" (by decide) (by decide) (by decide) (by decide) (by decide)
      (by decide)).1,
   by decide⟩

/-- C10: the tie-break of `__calculate_cost` is deterministic: when the model
name is not an exact key and several table keys of the same maximal length
are substrings of it, the head of the stable descending-length sort is the
maximal-length match appearing earliest in the table's insertion order, and
equal arguments always give equal costs. -/
theorem c10_tie_break (model : String) (hnone : lookupPrice model = none)
    (k1 k2 : String) (hk1 : k1 ∈ matching_models model)
    (hk2 : k2 ∈ matching_models model) (hkne : ¬ k1 = k2)
    (hmax1 : ∀ k' ∈ matching_models model, k'.length ≤ k1.length)
    (hmax2 : ∀ k' ∈ matching_models model, k'.length ≤ k2.length) :
    longest_match model = firstMaxLen (matching_models model) ∧
    ∀ p c p' c' : ℤ, p = p' → c = c' →
      calculate_cost model p c = calculate_cost model p' c' := by
  refine ⟨head_sort_firstMaxLen (matching_models model), ?_⟩
  intro p c p' c' hpp hcc
  rw [hpp, hcc]

/-- Witness for C10 at `"gpt-4o1-pro"`, which contains both `"gpt-4o"` and
`"o1-pro"` (length 6 each): `"gpt-4o"`, first in the table, wins. -/
theorem c10_tie_break_w :
    longest_match "gpt-4o1-pro" = firstMaxLen (matching_models "gpt-4o1-pro") ∧
    longest_match "gpt-4o1-pro" = some "gpt-4o" :=
  ⟨(c10_tie_break "gpt-4o1-pro" rfl "gpt-4o" "o1-pro" (by decide) (by decide)
      (by decide) (by decide) (by decide)).1,
   by decide⟩
